import Mathlib

set_option maxRecDepth 1024

/-!
Shallow embedding of scripts/tts_from_narration.py.

Python strings are modelled as List Char and Python byte strings as
List Nat (one Nat per byte).  Whitespace stripping, case conversion and
integer literal parsing are modelled on the ASCII subset, which is the
only subset the verified properties exercise.  Code paths where the
Python runtime raises an exception (struct.pack range errors) are
modelled with Option.
-/

/-- ASCII whitespace, the common ASCII core of Python str.strip and of
the regex class backslash-s. -/
def isPySpace (c : Char) : Bool :=
  c = ' ' || c = '\t' || c = '\n' || c = '\r' || c = '\x0b' || c = '\x0c'

/-- Python str.strip with no argument: remove leading and trailing
whitespace. -/
def pyStrip (s : List Char) : List Char :=
  ((s.dropWhile isPySpace).reverse.dropWhile isPySpace).reverse

/-- Python str.lower, ASCII model. -/
def lowerStr (s : List Char) : List Char := s.map Char.toLower

/-- Python str.split(sep) for a one-character separator: always returns
at least one (possibly empty) field, as in Python where splitting the
empty string on a semicolon gives a list holding one empty string. -/
def splitOnChar (sep : Char) (s : List Char) : List (List Char) :=
  match s with
  | [] => [[]]
  | c :: rest =>
    match splitOnChar sep rest with
    | [] => [[]]
    | g :: gs => if c = sep then [] :: g :: gs else (c :: g) :: gs

/-- Index of the first occurrence of a character, or none. -/
def firstIdxOf (c : Char) : List Char → Option Nat
  | [] => none
  | a :: rest => if a = c then some 0 else (firstIdxOf c rest).map (· + 1)

/-- Digit run of a Python decimal int literal: digits, with single
underscores allowed strictly between digits.  The accumulator holds the
value of the digits already read. -/
def pyDigits (acc : Nat) : List Char → Option Nat
  | [] => some acc
  | '_' :: c :: rest =>
    if c.isDigit then pyDigits (acc * 10 + (c.toNat - 48)) rest else none
  | '_' :: [] => none
  | c :: rest =>
    if c.isDigit then pyDigits (acc * 10 + (c.toNat - 48)) rest else none

/-- Python int(str) on ASCII input: optional surrounding whitespace, an
optional sign, then a digit run.  Returns none where Python raises
ValueError. -/
def pyInt (s : List Char) : Option Int :=
  match pyStrip s with
  | '+' :: c :: rest =>
    if c.isDigit then (pyDigits (c.toNat - 48) rest).map (fun n => (n : Int)) else none
  | '-' :: c :: rest =>
    if c.isDigit then (pyDigits (c.toNat - 48) rest).map (fun n => -(n : Int)) else none
  | c :: rest =>
    if c.isDigit then (pyDigits (c.toNat - 48) rest).map (fun n => (n : Int)) else none
  | [] => none

/-- One iteration of the parameter loop of parse_audio_mime_type.  The
state is the pair (bits_per_sample, rate).  A parameter whose lowercase
form starts with "rate=" updates the rate when the text after the first
equals sign parses as an int (that first equals sign is necessarily at
index 4, so the parsed text is the parameter from index 5 on); otherwise
a parameter starting with "audio/L" updates bits_per_sample when the
text after the first letter L parses (that L is necessarily at index 6,
so the parsed text starts at index 7).  Parse failures leave the state
unchanged, mirroring the try/except-pass in the source. -/
def mimeStep (acc : Int × Int) (param : List Char) : Int × Int :=
  let p := pyStrip param
  if List.isPrefixOf "rate=".toList (lowerStr p) then
    match pyInt (p.drop 5) with
    | some r => (acc.1, r)
    | none => acc
  else if List.isPrefixOf "audio/L".toList p then
    match pyInt (p.drop 7) with
    | some b => (b, acc.2)
    | none => acc
  else acc

/-- parse_audio_mime_type from the source: split the descriptor on
semicolons and fold the parameter loop from the defaults (16, 24000).
The first component is bits_per_sample, the second is rate. -/
def parse_audio_mime_type (mime : List Char) : Int × Int :=
  (splitOnChar ';' mime).foldl mimeStep (16, 24000)

/-- Backtracking-faithful model of Python re.match applied to the
pattern anchored at the start: a greedy run of whitespace, a captured
group of one to sixty non-colon characters, then a colon (the trailing
whitespace run of the pattern always matches and does not affect the
group).  With p the index of the first colon, the match succeeds exactly
when some split point w of the leading whitespace run leaves between one
and sixty characters before the colon; greediness picks the largest such
w.  Returns the captured group. -/
def reMatchName (t : List Char) : Option (List Char) :=
  match firstIdxOf ':' t with
  | none => none
  | some p =>
    if p = 0 then none
    else
      let ws := (t.takeWhile isPySpace).length
      let w := min ws (p - 1)
      if p ≤ w + 60 then some ((t.drop w).take (p - w)) else none

/-- Input document for read_narration_text: either the segmented JSON
form (the list of the text fields of the segments, after Python str
conversion) or the plain text form (the lines of the file; universal
newline handling means a line never contains a newline character). -/
inductive NarrationDoc where
  | json (segments : List (List Char))
  | txt (lines : List (List Char))

/-- Entry sequence of a document.  The two branches of
read_narration_text run the identical per-entry body over exactly this
sequence. -/
def entriesOf : NarrationDoc → List (List Char)
  | .json segments => segments
  | .txt lines => lines

/-- Speaker registration from the source: append the name when it is
non-empty and not yet present. -/
def insName (sp : List (List Char)) (n : List Char) : List (List Char) :=
  if n ∈ sp then sp else sp ++ [n]

/-- Body of the per-entry loop of read_narration_text.  The state is
(joined_lines, speakers).  A stripped-empty entry is skipped entirely;
otherwise the stripped entry is appended to joined_lines verbatim and,
when the name regex matches, the stripped group is registered if
non-empty and new. -/
def stepEntry (acc : List (List Char) × List (List Char)) (e : List Char) :
    List (List Char) × List (List Char) :=
  let t := pyStrip e
  if t = [] then acc
  else
    (acc.1 ++ [t],
      match reMatchName t with
      | none => acc.2
      | some g =>
        let n := pyStrip g
        if n = [] then acc.2 else insName acc.2 n)

/-- Python newline join: the separator is placed between consecutive
elements only. -/
def joinNL : List (List Char) → List Char
  | [] => []
  | [x] => x
  | x :: y :: tl => x ++ '\n' :: joinNL (y :: tl)

/-- read_narration_text from the source: fold the per-entry loop over
the document's entries, then join the kept lines with newlines.  Returns
(joined_text, speakers). -/
def read_narration_text (doc : NarrationDoc) : List Char × List (List Char) :=
  let r := (entriesOf doc).foldl stepEntry ([], [])
  (joinNL r.1, r.2)

/-- Kept form of one entry: its stripped text when non-empty. -/
def keptEntry (e : List Char) : Option (List Char) :=
  if pyStrip e = [] then none else some (pyStrip e)

/-- Kept lines of a document, in order: the stripped non-empty entries. -/
def keptLines (doc : NarrationDoc) : List (List Char) :=
  (entriesOf doc).filterMap keptEntry

/-- Name contributed by one entry, if any: the entry is kept, the name
regex matches its stripped text, and the stripped group is non-empty. -/
def extractName (e : List Char) : Option (List Char) :=
  let t := pyStrip e
  if t = [] then none
  else
    match reMatchName t with
    | none => none
    | some g =>
      let n := pyStrip g
      if n = [] then none else some n

/-- Sequence of speaker-name occurrences of a document, in entry order,
with repetitions. -/
def spokenNames (doc : NarrationDoc) : List (List Char) :=
  (entriesOf doc).filterMap extractName

/-- First-occurrence deduplication relative to an already-seen list. -/
def dedupFirstAux (seen : List (List Char)) : List (List Char) → List (List Char)
  | [] => []
  | n :: rest =>
    if n ∈ seen then dedupFirstAux seen rest
    else n :: dedupFirstAux (seen ++ [n]) rest

/-- First-occurrence deduplication: keep each element at its first
appearance, in order. -/
def dedupFirst (l : List (List Char)) : List (List Char) :=
  dedupFirstAux [] l

/-- Lines of a string under the newline separator; the empty string has
no lines. -/
def linesOf (s : List Char) : List (List Char) :=
  if s = [] then [] else splitOnChar '\n' s

/-- Fixed default voice palette of the source. -/
def defaultVoices : List (List Char) :=
  ["Zephyr".toList, "Puck".toList, "Oriole".toList, "Breeze".toList]

/-- Voice cycle construction of the source: split the voices argument on
commas (an empty argument is falsy and yields no parts), strip each part
and drop blank parts; when nothing remains use the default palette. -/
def buildVoiceCycle (voices : List Char) : List (List Char) :=
  let parts := if voices = [] then [] else splitOnChar ',' voices
  let cleaned := parts.filterMap fun v =>
    let s := pyStrip v
    if s = [] then none else some s
  if cleaned = [] then defaultVoices else cleaned

/-- Speaker voice configuration list of the source: speaker at index
idx is paired with the cycle entry at idx modulo the cycle length.  The
cycle produced by buildVoiceCycle is never empty, so the default of the
safe indexing is never used. -/
def speakerVoiceConfigs (speakers cycle : List (List Char)) :
    List (List Char × List Char) :=
  speakers.enum.map fun iv => (iv.2, cycle.getD (iv.1 % cycle.length) [])

/-- Little-endian two-byte encoding. -/
def le16 (n : Nat) : List Nat :=
  [n % 256, n / 256 % 256]

/-- Little-endian four-byte encoding. -/
def le32 (n : Nat) : List Nat :=
  [n % 256, n / 256 % 256, n / 65536 % 256, n / 16777216 % 256]

/-- struct.pack of one unsigned 16-bit field: Python raises
struct.error outside the representable range, modelled as none. -/
def packU16 (n : Int) : Option (List Nat) :=
  if 0 ≤ n ∧ n < 65536 then some (le16 n.toNat) else none

/-- struct.pack of one unsigned 32-bit field: Python raises
struct.error outside the representable range, modelled as none. -/
def packU32 (n : Int) : Option (List Nat) :=
  if 0 ≤ n ∧ n < 4294967296 then some (le32 n.toNat) else none

/-- convert_to_wav from the source: compute the PCM parameters from the
descriptor and prepend the 44-byte RIFF/WAVE/fmt/data header.  The
fixed fields (the four tags, subchunk size 16, PCM format 1, one
channel) are always representable; the computed fields go through the
range-checked pack.  Python integer floor division is Int.fdiv. -/
def convert_to_wav (audio_data : List Nat) (mime : List Char) : Option (List Nat) :=
  let params := parse_audio_mime_type mime
  let bits_per_sample := params.1
  let sample_rate := params.2
  let data_size : Int := (audio_data.length : Int)
  let bytes_per_sample := Int.fdiv bits_per_sample 8
  let block_align := 1 * bytes_per_sample
  let byte_rate := sample_rate * block_align
  let chunk_size := 36 + data_size
  (packU32 chunk_size).bind fun cs =>
  (packU32 sample_rate).bind fun sr =>
  (packU32 byte_rate).bind fun br =>
  (packU16 block_align).bind fun ba =>
  (packU16 bits_per_sample).bind fun bp =>
  (packU32 data_size).bind fun ds =>
  some ([82, 73, 70, 70] ++ cs ++ [87, 65, 86, 69] ++ [102, 109, 116, 32] ++
    le32 16 ++ le16 1 ++ le16 1 ++ sr ++ br ++ ba ++ bp ++
    [100, 97, 116, 97] ++ ds ++ audio_data)

/-- Canonical header produced for a 16-bit 24000 Hz single-channel
payload of d bytes. -/
def wavHdr16_24000 (d : Nat) : List Nat :=
  [82, 73, 70, 70] ++ le32 (36 + d) ++ [87, 65, 86, 69] ++ [102, 109, 116, 32] ++
  le32 16 ++ le16 1 ++ le16 1 ++ le32 24000 ++ le32 48000 ++ le16 2 ++ le16 16 ++
  [100, 97, 116, 97] ++ le32 d

/-- Inline data of a streamed part: optional byte payload and optional
format descriptor. -/
structure PyInlineData where
  data : Option (List Nat)
  mimeType : Option (List Char)

/-- One part of a streamed candidate content. -/
structure PyPart where
  inlineData : Option PyInlineData

/-- Content of a streamed candidate. -/
structure PyContent where
  parts : List PyPart

/-- One candidate of a streamed chunk. -/
structure PyCandidate where
  content : Option PyContent

/-- One event of the synthesis stream.  A missing candidates attribute
and an empty candidates list are both falsy in the source and behave
identically, so candidates is modelled as a list whose elements may be
none. -/
structure PyChunk where
  candidates : List (Option PyCandidate)

/-- Guard chain of the stream loop: first candidate present and truthy,
its content present, its parts non-empty; then the first part's inline
data attribute. -/
def extractInline (ch : PyChunk) : Option PyInlineData :=
  match ch.candidates with
  | [] => none
  | c0 :: _ =>
    match c0 with
    | none => none
    | some cand =>
      match cand.content with
      | none => none
      | some ct =>
        match ct.parts with
        | [] => none
        | part :: _ => part.inlineData

/-- Body of the stream loop.  The state is (buffers, first_mime).  A
chunk whose inline data exists and whose payload is truthy (present and
non-empty) appends its payload; when first_mime is still empty it is
set to the chunk's descriptor, with a missing descriptor read as the
empty string. -/
def streamStep (st : List (List Nat) × List Char) (ch : PyChunk) :
    List (List Nat) × List Char :=
  match extractInline ch with
  | none => st
  | some inl =>
    match inl.data with
    | none => st
    | some d =>
      if d = [] then st
      else (st.1 ++ [d], if st.2 = [] then inl.mimeType.getD [] else st.2)

/-- Stream consumption loop of main: fold the body from an empty buffer
list and an empty retained descriptor. -/
def consumeStream (chunks : List PyChunk) : List (List Nat) × List Char :=
  chunks.foldl streamStep ([], [])

/-- Payload of a chunk when it is payload-bearing: inline data present,
payload present and non-empty. -/
def payloadOf (ch : PyChunk) : Option (List Nat) :=
  match extractInline ch with
  | none => none
  | some inl =>
    match inl.data with
    | none => none
    | some d => if d = [] then none else some d

/-- Descriptor a payload-bearing chunk would contribute (missing read
as empty); none for chunks that are not payload-bearing. -/
def payloadMime (ch : PyChunk) : Option (List Char) :=
  match extractInline ch with
  | none => none
  | some inl =>
    match inl.data with
    | none => none
    | some d => if d = [] then none else some (inl.mimeType.getD [])

/-- Descriptor carried by a chunk, regardless of payload: the inline
data's format descriptor when present. -/
def carriedMime (ch : PyChunk) : Option (List Char) :=
  match extractInline ch with
  | none => none
  | some inl => inl.mimeType

/-- First non-empty string of a list, or the empty string. -/
def firstNonEmptyStr : List (List Char) → List Char
  | [] => []
  | m :: rest => if m = [] then firstNonEmptyStr rest else m

/-- Partial model of the Python stdlib mimetypes table, restricted to
audio types; guess_extension lowercases its argument and looks it up.
Every lookup the verified properties depend on misses this table (the
empty string is not a registered media type). -/
def mimetypesTable : List (List Char × List Char) :=
  [("audio/mpeg".toList, ".mp3".toList),
   ("audio/x-wav".toList, ".wav".toList),
   ("audio/x-aiff".toList, ".aif".toList),
   ("audio/basic".toList, ".au".toList)]

/-- mimetypes.guess_extension: table lookup of the lowercased type. -/
def guessExtension (m : List Char) : Option (List Char) :=
  List.lookup (lowerStr m) mimetypesTable

/-- Index of the last occurrence of a character, or none. -/
def lastIdxOf (c : Char) (s : List Char) : Option Nat :=
  match firstIdxOf c s.reverse with
  | none => none
  | some k => some (s.length - 1 - k)

/-- os.path.splitext (posix): split at the last dot that lies after the
last slash and is preceded, within the basename, by at least one
non-dot character; otherwise the extension is empty. -/
def splitextOf (p : List Char) : List Char × List Char :=
  match lastIdxOf '.' p with
  | none => (p, [])
  | some d =>
    let start :=
      match lastIdxOf '/' p with
      | none => 0
      | some s => s + 1
    if start ≤ d ∧ ((p.drop start).take (d - start)).any (fun c => c ≠ '.') then
      (p.take d, p.drop d)
    else (p, [])

/-- Outcome of the tail of main after the stream has been consumed:
exited with a process exit code before any disk access, wrote the given
bytes to the given path (the only constructor under which save_file
runs), or crashed with an uncaught exception (also before any disk
access). -/
inductive RunOutcome where
  | exited (code : Nat)
  | wrote (path : List Char) (bytes : List Nat)
  | crashed
deriving DecidableEq

/-- Tail of main from the stream loop on: exit 4 when no payload was
received; otherwise join the buffers, guess the extension from the
retained descriptor (default .wav), align the output path's extension,
and for the .wav extension wrap the bytes with convert_to_wav using the
retained descriptor or, when it is empty, the default descriptor. -/
def mainTail (out_file : List Char) (chunks : List PyChunk) : RunOutcome :=
  let st := consumeStream chunks
  let buffers := st.1
  let first_mime := st.2
  if buffers = [] then .exited 4
  else
    let audio_bytes := buffers.flatten
    let e := (guessExtension first_mime).getD ".wav".toList
    let out_path :=
      if List.isSuffixOf e (lowerStr out_file) then out_file
      else (splitextOf out_file).1 ++ e
    if e = ".wav".toList then
      match convert_to_wav audio_bytes
          (if first_mime = [] then "audio/L16;rate=24000".toList else first_mime) with
      | some b => .wrote out_path b
      | none => .crashed
    else .wrote out_path audio_bytes

/-! ### Stream loop lemmas -/

theorem streamStep_cases (st : List (List Nat) × List Char) (ch : PyChunk) :
    (payloadOf ch = none ∧ payloadMime ch = none ∧ streamStep st ch = st) ∨
    (∃ d m, payloadOf ch = some d ∧ payloadMime ch = some m ∧
      streamStep st ch = (st.1 ++ [d], if st.2 = [] then m else st.2)) := by
  unfold streamStep payloadOf payloadMime
  cases hx : extractInline ch with
  | none => exact Or.inl ⟨rfl, rfl, rfl⟩
  | some inl =>
    cases hd : inl.data with
    | none => exact Or.inl ⟨by simp [hd], by simp [hd], by simp [hd]⟩
    | some d =>
      by_cases hde : d = []
      · exact Or.inl ⟨by simp [hd, hde], by simp [hd, hde], by simp [hd, hde]⟩
      · exact Or.inr ⟨d, inl.mimeType.getD [],
          by simp [hd, hde], by simp [hd, hde], by simp [hd, hde]⟩

theorem foldl_streamStep_fst (chunks : List PyChunk) :
    ∀ st : List (List Nat) × List Char,
      (chunks.foldl streamStep st).1 = st.1 ++ chunks.filterMap payloadOf := by
  induction chunks with
  | nil => intro st; simp
  | cons ch rest ih =>
    intro st
    rw [List.foldl_cons, ih, List.filterMap_cons]
    rcases streamStep_cases st ch with ⟨h1, _, h3⟩ | ⟨d, m, h1, _, h3⟩
    · simp [h1, h3]
    · simp [h1, h3]

theorem consume_fst (chunks : List PyChunk) :
    (consumeStream chunks).1 = chunks.filterMap payloadOf := by
  have h := foldl_streamStep_fst chunks ([], [])
  simpa [consumeStream] using h

theorem foldl_streamStep_snd (chunks : List PyChunk) :
    ∀ st : List (List Nat) × List Char,
      (chunks.foldl streamStep st).2 =
        if st.2 = [] then firstNonEmptyStr (chunks.filterMap payloadMime) else st.2 := by
  induction chunks with
  | nil => intro st; by_cases h : st.2 = [] <;> simp [firstNonEmptyStr, h]
  | cons ch rest ih =>
    intro st
    rw [List.foldl_cons, List.filterMap_cons, ih]
    rcases streamStep_cases st ch with ⟨_, h2, h3⟩ | ⟨d, m, _, h2, h3⟩
    · simp [h2, h3]
    · rw [h2, h3]
      by_cases hs : st.2 = []
      · by_cases hm : m = [] <;> simp [hs, hm, firstNonEmptyStr]
      · simp [hs]

theorem consume_snd (chunks : List PyChunk) :
    (consumeStream chunks).2 = firstNonEmptyStr (chunks.filterMap payloadMime) := by
  have h := foldl_streamStep_snd chunks ([], [])
  simpa [consumeStream] using h

/-! ### Stream claims -/

/-- C8: the stream loop's buffer list is exactly the payloads of the
payload-bearing chunks in arrival order, so the accumulated raw bytes
are their byte-exact concatenation; events without a payload contribute
nothing and the loop is total, raising no error. -/
theorem C8_accumulated_bytes (chunks : List PyChunk) :
    (consumeStream chunks).1 = chunks.filterMap payloadOf ∧
    (consumeStream chunks).1.flatten = (chunks.filterMap payloadOf).flatten :=
  ⟨consume_fst chunks, by rw [consume_fst chunks]⟩

/-- C2: when no chunk of the stream is payload-bearing, the tail of
main terminates with exit status 4, the distinct "no audio data
received" error, and never reaches save_file, so no output file is
created or overwritten. -/
theorem C2_no_audio_exits_4 (out_file : List Char) (chunks : List PyChunk)
    (h : ∀ ch ∈ chunks, payloadOf ch = none) :
    mainTail out_file chunks = RunOutcome.exited 4 := by
  have hb : (consumeStream chunks).1 = [] := by
    rw [consume_fst]; exact List.filterMap_eq_nil_iff.mpr h
  simp [mainTail, hb]

/-- Witness for C2 at a concrete stream of one empty event and one
metadata-only event. -/
theorem C2_no_audio_exits_4_w :
    (∀ ch ∈ ([⟨[]⟩, ⟨[some ⟨some ⟨[⟨some ⟨none, some "audio/ogg".toList⟩⟩]⟩⟩]⟩] :
        List PyChunk), payloadOf ch = none) ∧
    mainTail "narration.wav".toList
      ([⟨[]⟩, ⟨[some ⟨some ⟨[⟨some ⟨none, some "audio/ogg".toList⟩⟩]⟩⟩]⟩] :
        List PyChunk) = RunOutcome.exited 4 :=
  ⟨by decide, C2_no_audio_exits_4 _ _ (by decide)⟩

/-- C5 counterexample: a metadata-only first event carrying the
descriptor "audio/ogg" is skipped by the payload guard, and the
retained descriptor comes from the later payload-bearing event, so the
retained descriptor differs from the one announced by the first event
that carries a descriptor. -/
theorem C5_counterexample :
    carriedMime (⟨[some ⟨some ⟨[⟨some ⟨none, some "audio/ogg".toList⟩⟩]⟩⟩]⟩ : PyChunk)
      = some "audio/ogg".toList ∧
    (consumeStream
      [⟨[some ⟨some ⟨[⟨some ⟨none, some "audio/ogg".toList⟩⟩]⟩⟩]⟩,
       ⟨[some ⟨some ⟨[⟨some ⟨some [1], some "audio/L16;rate=24000".toList⟩⟩]⟩⟩]⟩]).2
      = "audio/L16;rate=24000".toList ∧
    "audio/L16;rate=24000".toList ≠ "audio/ogg".toList := by decide

/-- C5 amended: the retained descriptor is the first non-empty
descriptor announced by a payload-bearing event (empty when there is
none); descriptors carried by payload-less events and all later
descriptors are ignored. -/
theorem C5_retained_descriptor (chunks : List PyChunk) :
    (consumeStream chunks).2 = firstNonEmptyStr (chunks.filterMap payloadMime) :=
  consume_snd chunks

/-! ### Voice assignment claims -/

theorem buildVoiceCycle_ne_nil (voices : List Char) : buildVoiceCycle voices ≠ [] := by
  simp only [buildVoiceCycle]
  split <;> split <;> first | decide | assumption

/-- C6: voice assignment is deterministic with wraparound: the speaker
at index i is paired with the cycle entry at index i modulo the cycle
length; the cycle is always non-empty because the fixed four-entry
default replaces a caller palette whose parts are all blank; and the
concrete example assigns V1, V2, V1 to Amy, Bob, Cid. -/
theorem C6_voice_assignment :
    (∀ voices, buildVoiceCycle voices ≠ []) ∧
    (∀ voices, (∀ part ∈ splitOnChar ',' voices, pyStrip part = []) →
      buildVoiceCycle voices = defaultVoices) ∧
    (∀ (speakers : List (List Char)) (voices : List Char) (i : Nat),
      i < speakers.length →
      (speakerVoiceConfigs speakers (buildVoiceCycle voices)).getD i ([], []) =
        (speakers.getD i [],
          (buildVoiceCycle voices).getD (i % (buildVoiceCycle voices).length) [])) ∧
    speakerVoiceConfigs ["Amy".toList, "Bob".toList, "Cid".toList]
        (buildVoiceCycle "V1,V2".toList) =
      [("Amy".toList, "V1".toList), ("Bob".toList, "V2".toList),
       ("Cid".toList, "V1".toList)] := by
  refine ⟨buildVoiceCycle_ne_nil, ?_, ?_, by decide⟩
  · intro voices h
    simp only [buildVoiceCycle]
    split <;> split
    · rfl
    · next hne => exact absurd rfl hne
    · rfl
    · next hne =>
      exfalso
      apply hne
      refine List.filterMap_eq_nil_iff.mpr (fun v hv2 => ?_)
      simp [h v hv2]
  · intro speakers voices i hi
    have hlen : i < (speakerVoiceConfigs speakers (buildVoiceCycle voices)).length := by
      simpa [speakerVoiceConfigs] using hi
    rw [List.getD_eq_getElem _ _ hlen, List.getD_eq_getElem _ _ hi]
    simp [speakerVoiceConfigs, List.getElem_enum]

/-- Witness for C6 at concrete palettes and speakers. -/
theorem C6_voice_assignment_w :
    buildVoiceCycle " , ,".toList = defaultVoices ∧
    (speakerVoiceConfigs ["Amy".toList, "Bob".toList, "Cid".toList]
        (buildVoiceCycle "V1,V2".toList)).getD 2 ([], []) =
      (["Amy".toList, "Bob".toList, "Cid".toList].getD 2 [],
        (buildVoiceCycle "V1,V2".toList).getD
          (2 % (buildVoiceCycle "V1,V2".toList).length) []) :=
  ⟨C6_voice_assignment.2.1 " , ,".toList (by decide),
   C6_voice_assignment.2.2.1 ["Amy".toList, "Bob".toList, "Cid".toList]
     "V1,V2".toList 2 (by decide)⟩

/-! ### Format descriptor parsing claims -/

theorem foldl_mimeStep_snd (params : List (List Char))
    (h : ∀ p ∈ params,
      ¬ (List.isPrefixOf "rate=".toList (lowerStr (pyStrip p)) = true ∧
         (pyInt ((pyStrip p).drop 5)).isSome = true)) :
    ∀ acc : Int × Int, (params.foldl mimeStep acc).2 = acc.2 := by
  induction params with
  | nil => intro acc; rfl
  | cons q rest ih =>
    intro acc
    rw [List.foldl_cons]
    have hstep : (mimeStep acc q).2 = acc.2 := by
      have hq := h q (by simp)
      simp only [mimeStep]
      split
      · next hpre =>
        cases hint : pyInt ((pyStrip q).drop 5) with
        | none => rfl
        | some r => exact absurd ⟨hpre, by simp [hint]⟩ hq
      · split
        · cases hint : pyInt ((pyStrip q).drop 7) with
          | none => rfl
          | some b => rfl
        · rfl
    rw [ih (fun p hp => h p (by simp [hp])), hstep]

theorem foldl_mimeStep_fst (params : List (List Char))
    (h : ∀ p ∈ params,
      ¬ (List.isPrefixOf "rate=".toList (lowerStr (pyStrip p)) = false ∧
         List.isPrefixOf "audio/L".toList (pyStrip p) = true ∧
         (pyInt ((pyStrip p).drop 7)).isSome = true)) :
    ∀ acc : Int × Int, (params.foldl mimeStep acc).1 = acc.1 := by
  induction params with
  | nil => intro acc; rfl
  | cons q rest ih =>
    intro acc
    rw [List.foldl_cons]
    have hstep : (mimeStep acc q).1 = acc.1 := by
      have hq := h q (by simp)
      simp only [mimeStep]
      cases hb : List.isPrefixOf "rate=".toList (lowerStr (pyStrip q))
      · cases hb2 : List.isPrefixOf "audio/L".toList (pyStrip q)
        · simp [hb, hb2]
        · cases hint : pyInt ((pyStrip q).drop 7) with
          | none => simp [hb, hb2, hint]
          | some b => exact absurd ⟨hb, hb2, by simp [hint]⟩ hq
      · cases hint : pyInt ((pyStrip q).drop 5) with
        | none => simp [hb, hint]
        | some r => simp [hb, hint]
    rw [ih (fun p hp => h p (by simp [hp])), hstep]

/-- C7: format descriptor parsing is total and recoverable: the three
concrete examples show the malformed descriptor falling back to both
defaults and each field falling back individually, and the two general
conjuncts show that when no parameter both carries the rate (the
bit-depth) shape and parses as an int the corresponding field keeps its
default 24000 (16). -/
theorem C7_mime_parse_fallback :
    parse_audio_mime_type "audio/unknown".toList = (16, 24000) ∧
    parse_audio_mime_type "audio/Lxx;rate=8000".toList = (16, 8000) ∧
    parse_audio_mime_type "audio/L8;rate=zz".toList = (8, 24000) ∧
    (∀ mime, (∀ p ∈ splitOnChar ';' mime,
      ¬ (List.isPrefixOf "rate=".toList (lowerStr (pyStrip p)) = true ∧
         (pyInt ((pyStrip p).drop 5)).isSome = true)) →
      (parse_audio_mime_type mime).2 = 24000) ∧
    (∀ mime, (∀ p ∈ splitOnChar ';' mime,
      ¬ (List.isPrefixOf "rate=".toList (lowerStr (pyStrip p)) = false ∧
         List.isPrefixOf "audio/L".toList (pyStrip p) = true ∧
         (pyInt ((pyStrip p).drop 7)).isSome = true)) →
      (parse_audio_mime_type mime).1 = 16) := by
  refine ⟨by decide, by decide, by decide, ?_, ?_⟩
  · intro mime h
    exact foldl_mimeStep_snd (splitOnChar ';' mime) h (16, 24000)
  · intro mime h
    exact foldl_mimeStep_fst (splitOnChar ';' mime) h (16, 24000)

/-- Witness for C7: the rate of a descriptor with no well-formed rate
parameter is the default, applied at a concrete descriptor. -/
theorem C7_mime_parse_fallback_w :
    (parse_audio_mime_type "audio/ogg;rate=ten".toList).2 = 24000 ∧
    (parse_audio_mime_type "video/mp4;rate=99".toList).1 = 16 :=
  ⟨C7_mime_parse_fallback.2.2.2.1 "audio/ogg;rate=ten".toList (by decide),
   C7_mime_parse_fallback.2.2.2.2 "video/mp4;rate=99".toList (by decide)⟩

/-! ### Container encoder claims -/

theorem packU32_eq_of_lt (n : Nat) (h : n < 4294967296) :
    packU32 (n : Int) = some (le32 n) := by
  unfold packU32
  rw [if_pos ⟨by positivity, by exact_mod_cast h⟩]
  congr 1

theorem convert_wav_16_24000 (audio : List Nat) (mime : List Char)
    (hp : parse_audio_mime_type mime = (16, 24000))
    (hd : audio.length + 36 < 4294967296) :
    convert_to_wav audio mime = some (wavHdr16_24000 audio.length ++ audio) := by
  have hcs : packU32 (36 + (audio.length : Int)) = some (le32 (36 + audio.length)) := by
    have h2 := packU32_eq_of_lt (36 + audio.length) (by omega)
    rw [show ((36 + audio.length : Nat) : Int) = 36 + (audio.length : Int) by
      push_cast; ring] at h2
    exact h2
  have hds : packU32 ((audio.length : Int)) = some (le32 audio.length) :=
    packU32_eq_of_lt audio.length (by omega)
  have hsr : packU32 (24000 : Int) = some (le32 24000) := by decide
  have hbr : packU32 ((24000 : Int) * (1 * Int.fdiv 16 8)) = some (le32 48000) := by decide
  have hba : packU16 ((1 : Int) * Int.fdiv 16 8) = some (le16 2) := by decide
  have hbp : packU16 (16 : Int) = some (le16 16) := by decide
  simp only [convert_to_wav, hp]
  simp only [hcs, hds, hsr, hbr, hba, hbp, Option.some_bind]
  simp [wavHdr16_24000, List.append_assoc]

/-- C1: for every payload whose 36-byte-augmented length fits the
32-bit chunk-size field (the struct.pack range) and every descriptor
parsing to 16 bits per sample and 24000 Hz, convert_to_wav returns the
canonical 44-byte little-endian RIFF/WAVE/fmt/data header followed by
the payload unchanged; by definition of wavHdr16_24000 the header holds
chunkSize 36+D, byteRate 48000 = 24000*2, blockAlign 2, one channel,
PCM audio format 1 and dataSize D, and the total length is 44+D. -/
theorem C1_convert_to_wav_header (audio : List Nat) (mime : List Char)
    (hp : parse_audio_mime_type mime = (16, 24000))
    (hd : audio.length + 36 < 4294967296) :
    convert_to_wav audio mime = some (wavHdr16_24000 audio.length ++ audio) ∧
    (wavHdr16_24000 audio.length).length = 44 ∧
    (wavHdr16_24000 audio.length ++ audio).length = 44 + audio.length := by
  refine ⟨convert_wav_16_24000 audio mime hp hd, ?_, ?_⟩
  · simp [wavHdr16_24000, le16, le32]
  · simp only [List.length_append]
    simp [wavHdr16_24000, le16, le32]

/-- Witness for C1 at a two-byte payload and the default descriptor. -/
theorem C1_convert_to_wav_header_w :
    convert_to_wav [7, 8] "audio/L16;rate=24000".toList =
      some (wavHdr16_24000 2 ++ [7, 8]) ∧
    (wavHdr16_24000 2).length = 44 ∧
    (wavHdr16_24000 2 ++ [7, 8]).length = 44 + 2 :=
  C1_convert_to_wav_header [7, 8] "audio/L16;rate=24000".toList (by decide) (by decide)

theorem isSuffixOf_append_self (x y : List Char) :
    List.isSuffixOf x (y ++ x) = true := by
  simp [List.isSuffixOf]

/-- C10: when the retained descriptor is empty but at least one payload
was received (and the payload fits the 32-bit size fields), the run
still writes a valid output: the extension defaults to .wav, so the
final path ends in .wav, and the bytes written are the accumulated
payload wrapped via the default descriptor audio/L16;rate=24000, a
16-bit 24000 Hz single-channel header. -/
theorem C10_empty_descriptor_default (out_file : List Char) (chunks : List PyChunk)
    (hm : (consumeStream chunks).2 = [])
    (hb : ¬ (consumeStream chunks).1 = [])
    (hd : (consumeStream chunks).1.flatten.length + 36 < 4294967296) :
    ∃ p, mainTail out_file chunks =
        RunOutcome.wrote p
          (wavHdr16_24000 (consumeStream chunks).1.flatten.length ++
            (consumeStream chunks).1.flatten) ∧
      List.isSuffixOf ".wav".toList (lowerStr p) = true := by
  have hconv := convert_wav_16_24000 ((consumeStream chunks).1.flatten)
    "audio/L16;rate=24000".toList (by decide) hd
  have hg : guessExtension [] = none := by decide
  by_cases hsuf : List.isSuffixOf ".wav".toList (lowerStr out_file) = true
  · refine ⟨out_file, ?_, hsuf⟩
    simp only [mainTail]
    rw [if_neg hb, hm, hg, Option.getD_none, if_pos hsuf, if_pos rfl, if_pos rfl, hconv]
  · refine ⟨(splitextOf out_file).1 ++ ".wav".toList, ?_, ?_⟩
    · simp only [mainTail]
      rw [if_neg hb, hm, hg, Option.getD_none, if_neg hsuf, if_pos rfl, if_pos rfl, hconv]
    · have hlow : lowerStr ((splitextOf out_file).1 ++ ".wav".toList) =
          lowerStr (splitextOf out_file).1 ++ ".wav".toList := by
        simp [lowerStr]
      rw [hlow]
      exact isSuffixOf_append_self _ _

/-- Witness for C10 at a one-chunk stream with a payload and no
descriptor. -/
theorem C10_empty_descriptor_default_w :
    ∃ p, mainTail "out.mp3".toList
        [(⟨[some ⟨some ⟨[⟨some ⟨some [7, 8], none⟩⟩]⟩⟩]⟩ : PyChunk)] =
      RunOutcome.wrote p
        (wavHdr16_24000 (consumeStream
            [(⟨[some ⟨some ⟨[⟨some ⟨some [7, 8], none⟩⟩]⟩⟩]⟩ : PyChunk)]).1.flatten.length ++
          (consumeStream
            [(⟨[some ⟨some ⟨[⟨some ⟨some [7, 8], none⟩⟩]⟩⟩]⟩ : PyChunk)]).1.flatten) ∧
      List.isSuffixOf ".wav".toList (lowerStr p) = true :=
  C10_empty_descriptor_default "out.mp3".toList _ (by decide) (by decide) (by decide)

/-! ### Narration parser lemmas -/

theorem stepEntry_fst (acc : List (List Char) × List (List Char)) (e : List Char) :
    (stepEntry acc e).1 = acc.1 ++ (keptEntry e).toList := by
  simp only [stepEntry, keptEntry]
  by_cases h : pyStrip e = []
  · simp [h]
  · simp [h]

theorem stepEntry_snd (acc : List (List Char) × List (List Char)) (e : List Char) :
    (stepEntry acc e).2 =
      match extractName e with
      | none => acc.2
      | some n => insName acc.2 n := by
  simp only [stepEntry, extractName]
  by_cases h : pyStrip e = []
  · simp [h]
  · simp only [if_neg h]
    cases hr : reMatchName (pyStrip e) with
    | none => simp
    | some g =>
      by_cases hn : pyStrip g = []
      · simp [hn]
      · simp [hn]

theorem foldl_stepEntry_fst (entries : List (List Char)) :
    ∀ acc : List (List Char) × List (List Char),
      (entries.foldl stepEntry acc).1 = acc.1 ++ entries.filterMap keptEntry := by
  induction entries with
  | nil => intro acc; simp
  | cons e rest ih =>
    intro acc
    rw [List.foldl_cons, ih, stepEntry_fst, List.filterMap_cons]
    cases keptEntry e <;> simp

theorem foldl_stepEntry_snd (entries : List (List Char)) :
    ∀ acc : List (List Char) × List (List Char),
      (entries.foldl stepEntry acc).2 =
        (entries.filterMap extractName).foldl insName acc.2 := by
  induction entries with
  | nil => intro acc; rfl
  | cons e rest ih =>
    intro acc
    rw [List.foldl_cons, ih, stepEntry_snd, List.filterMap_cons]
    cases extractName e <;> simp

theorem foldl_insName (l : List (List Char)) :
    ∀ acc : List (List Char), l.foldl insName acc = acc ++ dedupFirstAux acc l := by
  induction l with
  | nil => intro acc; simp [dedupFirstAux]
  | cons n rest ih =>
    intro acc
    rw [List.foldl_cons]
    by_cases h : n ∈ acc
    · simp only [insName, if_pos h, dedupFirstAux, ih]
    · simp only [insName, if_neg h, dedupFirstAux, ih]
      simp [List.append_assoc]

theorem mem_dedupFirstAux (l : List (List Char)) :
    ∀ (seen : List (List Char)) (x : List Char),
      x ∈ dedupFirstAux seen l ↔ x ∈ l ∧ x ∉ seen := by
  induction l with
  | nil => intro seen x; simp [dedupFirstAux]
  | cons n rest ih =>
    intro seen x
    by_cases h : n ∈ seen
    · rw [show dedupFirstAux seen (n :: rest) = dedupFirstAux seen rest from by
        simp [dedupFirstAux, h]]
      rw [ih]
      simp only [List.mem_cons]
      constructor
      · rintro ⟨hx, hns⟩; exact ⟨Or.inr hx, hns⟩
      · rintro ⟨hor, hns⟩
        rcases hor with rfl | hx
        · exact absurd h hns
        · exact ⟨hx, hns⟩
    · rw [show dedupFirstAux seen (n :: rest) = n :: dedupFirstAux (seen ++ [n]) rest from by
        simp [dedupFirstAux, h]]
      simp only [List.mem_cons, ih]
      constructor
      · rintro (rfl | ⟨hx, hns⟩)
        · exact ⟨Or.inl rfl, h⟩
        · refine ⟨Or.inr hx, fun hx2 => hns ?_⟩
          simp [hx2]
      · rintro ⟨rfl | hx, hns⟩
        · exact Or.inl rfl
        · by_cases hxn : x = n
          · exact Or.inl hxn
          · refine Or.inr ⟨hx, ?_⟩
            simp [hns, hxn]

theorem nodup_dedupFirstAux (l : List (List Char)) :
    ∀ seen : List (List Char), (dedupFirstAux seen l).Nodup := by
  induction l with
  | nil => intro seen; simp [dedupFirstAux]
  | cons n rest ih =>
    intro seen
    by_cases h : n ∈ seen
    · simpa [dedupFirstAux, h] using ih seen
    · rw [show dedupFirstAux seen (n :: rest) = n :: dedupFirstAux (seen ++ [n]) rest from by
        simp [dedupFirstAux, h]]
      refine List.nodup_cons.mpr ⟨?_, ih _⟩
      intro hmem
      have h2 := (mem_dedupFirstAux rest _ n).mp hmem
      exact h2.2 (by simp)

theorem read_snd (doc : NarrationDoc) :
    (read_narration_text doc).2 = dedupFirst (spokenNames doc) := by
  show ((entriesOf doc).foldl stepEntry ([], [])).2 = _
  rw [foldl_stepEntry_snd, foldl_insName]
  simp [dedupFirst, spokenNames]

theorem read_fst (doc : NarrationDoc) :
    (read_narration_text doc).1 = joinNL (keptLines doc) := by
  show joinNL ((entriesOf doc).foldl stepEntry ([], [])).1 = _
  rw [foldl_stepEntry_fst]
  simp [keptLines]

/-! ### Speaker deduplication claim -/

/-- C4: the speakers list is exactly the first-occurrence
deduplication of the sequence of matched names, so it never contains
duplicates, a name is present exactly when some kept line contributed
it, and the three-line example yields Amy then Bob. -/
theorem C4_speaker_dedup :
    (∀ doc, (read_narration_text doc).2 = dedupFirst (spokenNames doc)) ∧
    (∀ doc, (read_narration_text doc).2.Nodup) ∧
    (∀ doc x, x ∈ (read_narration_text doc).2 ↔ x ∈ spokenNames doc) ∧
    (read_narration_text
        (.txt ["Amy: hi".toList, "Bob: yo".toList, "Amy: bye".toList])).2
      = ["Amy".toList, "Bob".toList] := by
  refine ⟨read_snd, ?_, ?_, by decide⟩
  · intro doc
    rw [read_snd]
    exact nodup_dedupFirstAux _ []
  · intro doc x
    rw [read_snd]
    unfold dedupFirst
    rw [mem_dedupFirstAux]
    simp

/-! ### Join and split lemmas -/

theorem splitOnChar_ne_nil (sep : Char) (s : List Char) : splitOnChar sep s ≠ [] := by
  cases s with
  | nil => simp [splitOnChar]
  | cons c rest =>
    simp only [splitOnChar]
    cases splitOnChar sep rest with
    | nil => simp
    | cons g gs => by_cases h : c = sep <;> simp [h]

theorem splitOnChar_of_not_mem (sep : Char) (x : List Char) (h : sep ∉ x) :
    splitOnChar sep x = [x] := by
  induction x with
  | nil => rfl
  | cons c rest ih =>
    have hc : ¬ c = sep := fun hcs => h (by simp [hcs])
    have hr : splitOnChar sep rest = [rest] := ih (fun hm => h (by simp [hm]))
    simp [splitOnChar, hr, hc]

theorem splitOnChar_append (sep : Char) (x r : List Char) (h : sep ∉ x) :
    splitOnChar sep (x ++ sep :: r) = x :: splitOnChar sep r := by
  induction x with
  | nil =>
    simp only [List.nil_append]
    cases hsp : splitOnChar sep r with
    | nil => exact absurd hsp (splitOnChar_ne_nil sep r)
    | cons g gs => simp [splitOnChar, hsp]
  | cons c rest ih =>
    have hc : ¬ c = sep := fun hcs => h (by simp [hcs])
    have hr := ih (fun hm => h (by simp [hm]))
    show splitOnChar sep (c :: (rest ++ sep :: r)) = (c :: rest) :: splitOnChar sep r
    rw [show splitOnChar sep (c :: (rest ++ sep :: r)) =
        match splitOnChar sep (rest ++ sep :: r) with
        | [] => [[]]
        | g :: gs => if c = sep then [] :: g :: gs else (c :: g) :: gs from rfl]
    rw [hr]
    simp [hc]

theorem splitOnChar_joinNL (ls : List (List Char)) (h : ∀ l ∈ ls, '\n' ∉ l)
    (hne : ls ≠ []) : splitOnChar '\n' (joinNL ls) = ls := by
  induction ls with
  | nil => exact absurd rfl hne
  | cons x tl ih =>
    cases tl with
    | nil =>
      show splitOnChar '\n' (joinNL [x]) = [x]
      rw [show joinNL [x] = x from rfl]
      exact splitOnChar_of_not_mem '\n' x (h x (by simp))
    | cons y tl2 =>
      rw [show joinNL (x :: y :: tl2) = x ++ '\n' :: joinNL (y :: tl2) from rfl]
      rw [splitOnChar_append '\n' x _ (h x (by simp))]
      rw [ih (fun l hl => h l (by simp [hl])) (by simp)]

theorem keptEntry_eq_some (e l : List Char) (h : keptEntry e = some l) :
    l = pyStrip e ∧ l ≠ [] := by
  unfold keptEntry at h
  by_cases hs : pyStrip e = []
  · rw [if_pos hs] at h; exact absurd h (by simp)
  · rw [if_neg hs] at h
    have h2 := Option.some.inj h
    subst h2
    exact ⟨rfl, hs⟩

theorem mem_keptLines_ne_nil (doc : NarrationDoc) (l : List Char)
    (h : l ∈ keptLines doc) : l ≠ [] := by
  obtain ⟨e, _, he⟩ := List.mem_filterMap.mp h
  exact (keptEntry_eq_some e l he).2

theorem joinNL_ne_nil (ls : List (List Char)) (hne : ls ≠ [])
    (hhd : ∀ l ∈ ls, l ≠ []) : joinNL ls ≠ [] := by
  cases ls with
  | nil => exact absurd rfl hne
  | cons x tl =>
    cases tl with
    | nil => exact hhd x (by simp)
    | cons y tl2 => simp [joinNL]

/-! ### Joined text claims -/

/-- C3 counterexample: a single JSON segment whose text contains
interior newlines is one kept entry (N equals 1), yet the joined text
contains three lines, one of them empty, refuting the
exactly-N-lines-and-no-empty-line consequence of the claim as stated. -/
theorem C3_counterexample :
    (keptLines (.json ["a\n\nb".toList])).length = 1 ∧
    linesOf (read_narration_text (.json ["a\n\nb".toList])).1
      = ["a".toList, [], "b".toList] ∧
    [] ∈ linesOf (read_narration_text (.json ["a\n\nb".toList])).1 := by decide

/-- C3 amended: the joined text is the newline join of exactly the N
trimmed non-empty entries in original order, retained verbatim; when no
kept entry contains an interior newline, which is always the case for
the plain line form, the joined text consists of exactly those N lines,
none of them empty or whitespace-only. -/
theorem C3_joined_text :
    (∀ doc, (read_narration_text doc).1 = joinNL (keptLines doc)) ∧
    (∀ doc, (∀ l ∈ keptLines doc, '\n' ∉ l) →
      linesOf (read_narration_text doc).1 = keptLines doc) := by
  refine ⟨read_fst, ?_⟩
  intro doc h
  rw [read_fst]
  by_cases hk : keptLines doc = []
  · rw [hk]
    simp [linesOf, joinNL]
  · have hne : joinNL (keptLines doc) ≠ [] :=
      joinNL_ne_nil _ hk (fun l hl => mem_keptLines_ne_nil doc l hl)
    unfold linesOf
    rw [if_neg hne]
    exact splitOnChar_joinNL _ h hk

/-- Witness for C3 at a concrete two-line document. -/
theorem C3_joined_text_w :
    linesOf (read_narration_text (.txt ["Amy: hi".toList, "Bob: yo".toList])).1
      = keptLines (.txt ["Amy: hi".toList, "Bob: yo".toList]) :=
  C3_joined_text.2 (.txt ["Amy: hi".toList, "Bob: yo".toList]) (by decide)

/-! ### Speaker shape lemmas -/

theorem firstIdxOf_spec (c : Char) (t : List Char) :
    ∀ p : Nat, firstIdxOf c t = some p →
      p < t.length ∧ ∀ i, i < p → t[i]? ≠ some c := by
  induction t with
  | nil => intro p h; simp [firstIdxOf] at h
  | cons a rest ih =>
    intro p h
    by_cases hac : a = c
    · rw [show firstIdxOf c (a :: rest) = some 0 from by simp [firstIdxOf, hac]] at h
      obtain rfl : (0 : Nat) = p := Option.some.inj h
      exact ⟨by simp, fun i hi => absurd hi (by omega)⟩
    · rw [show firstIdxOf c (a :: rest) = (firstIdxOf c rest).map (· + 1) from by
        simp [firstIdxOf, hac]] at h
      cases hr : firstIdxOf c rest with
      | none => rw [hr] at h; simp at h
      | some q =>
        rw [hr] at h
        obtain rfl : q + 1 = p := by simpa using h
        obtain ⟨h1, h2⟩ := ih q hr
        refine ⟨by simp; omega, ?_⟩
        intro i hi
        cases i with
        | zero => simpa using hac
        | succ j =>
          have h3 := h2 j (by omega)
          simpa using h3

theorem reMatchName_eq (t : List Char) (p : Nat) (hf : firstIdxOf ':' t = some p) :
    reMatchName t =
      (if p = 0 then none
       else if p ≤ min (t.takeWhile isPySpace).length (p - 1) + 60
         then some ((t.drop (min (t.takeWhile isPySpace).length (p - 1))).take
           (p - min (t.takeWhile isPySpace).length (p - 1)))
         else none) := by
  unfold reMatchName
  rw [hf]

theorem reMatchName_shape (t g : List Char) (h : reMatchName t = some g) :
    g ≠ [] ∧ g.length ≤ 60 ∧ ':' ∉ g := by
  cases hf : firstIdxOf ':' t with
  | none =>
    rw [show reMatchName t = none from by unfold reMatchName; rw [hf]] at h
    simp at h
  | some p =>
    rw [reMatchName_eq t p hf] at h
    by_cases hp : p = 0
    · rw [if_pos hp] at h; simp at h
    · rw [if_neg hp] at h
      by_cases hle : p ≤ min (t.takeWhile isPySpace).length (p - 1) + 60
      · rw [if_pos hle] at h
        obtain rfl : (t.drop (min (t.takeWhile isPySpace).length (p - 1))).take
            (p - min (t.takeWhile isPySpace).length (p - 1)) = g := Option.some.inj h
        obtain ⟨hlt, hbefore⟩ := firstIdxOf_spec ':' t p hf
        set w := min (t.takeWhile isPySpace).length (p - 1) with hww
        have hwp : w ≤ p - 1 := min_le_right _ _
        refine ⟨?_, ?_, ?_⟩
        · apply List.ne_nil_of_length_pos
          simp only [List.length_take, List.length_drop]
          omega
        · have hlen : ((t.drop w).take (p - w)).length =
              min (p - w) (t.length - w) := by
            simp [List.length_take, List.length_drop]
          rw [hlen]
          omega
        · intro hm
          obtain ⟨i, hgi⟩ := List.mem_iff_getElem?.mp hm
          rw [List.getElem?_take] at hgi
          by_cases hik : i < p - w
          · rw [if_pos hik] at hgi
            rw [List.getElem?_drop] at hgi
            exact hbefore (w + i) (by omega) hgi
          · rw [if_neg hik] at hgi
            exact absurd hgi (by simp)
      · rw [if_neg hle] at h
        simp at h

theorem head?_dropWhile (p : Char → Bool) (l : List Char) :
    ∀ c, (l.dropWhile p).head? = some c → p c = false := by
  induction l with
  | nil => intro c h; simp at h
  | cons a rest ih =>
    intro c h
    by_cases hpa : p a = true
    · rw [List.dropWhile_cons, if_pos hpa] at h
      exact ih c h
    · rw [List.dropWhile_cons, if_neg hpa] at h
      obtain rfl : a = c := by simpa using h
      simpa using hpa

theorem rstrip_prefix (l : List Char) :
    (l.reverse.dropWhile isPySpace).reverse <+: l := by
  have h1 : l.reverse.dropWhile isPySpace <:+ l.reverse := List.dropWhile_suffix _
  have h2 := List.reverse_prefix.mpr h1
  rwa [List.reverse_reverse] at h2

theorem pyStrip_prefix_dropWhile (s : List Char) :
    pyStrip s <+: s.dropWhile isPySpace :=
  rstrip_prefix (s.dropWhile isPySpace)

theorem pyStrip_sublist (s : List Char) : List.Sublist (pyStrip s) s := by
  have h1 : List.Sublist (pyStrip s) (s.dropWhile isPySpace) :=
    (pyStrip_prefix_dropWhile s).sublist
  have h2 : List.Sublist (s.dropWhile isPySpace) s :=
    (List.dropWhile_suffix _).sublist
  exact h1.trans h2

theorem pyStrip_length_le (s : List Char) : (pyStrip s).length ≤ s.length :=
  (pyStrip_sublist s).length_le

theorem pyStrip_subset (s : List Char) : ∀ x, x ∈ pyStrip s → x ∈ s :=
  fun _ hx => (pyStrip_sublist s).subset hx

theorem pyStrip_head? (s : List Char) :
    ∀ c, (pyStrip s).head? = some c → isPySpace c = false := by
  intro c h
  obtain ⟨r, hr⟩ := pyStrip_prefix_dropWhile s
  cases hps : pyStrip s with
  | nil => rw [hps] at h; simp at h
  | cons a tl =>
    rw [hps] at h
    obtain rfl : a = c := by simpa using h
    have h2 : (s.dropWhile isPySpace).head? = some a := by
      rw [← hr, hps]; simp
    exact head?_dropWhile isPySpace s a h2

theorem pyStrip_getLast? (s : List Char) :
    ∀ c, (pyStrip s).getLast? = some c → isPySpace c = false := by
  intro c h
  have h2 : ((s.dropWhile isPySpace).reverse.dropWhile isPySpace).head? = some c := by
    rw [← List.getLast?_reverse]
    exact h
  exact head?_dropWhile isPySpace _ c h2

theorem extractName_shape (e n : List Char) (h : extractName e = some n) :
    n ≠ [] ∧ n.length ≤ 60 ∧ ':' ∉ n ∧
    (∀ c, n.head? = some c → isPySpace c = false) ∧
    (∀ c, n.getLast? = some c → isPySpace c = false) := by
  simp only [extractName] at h
  by_cases ht : pyStrip e = []
  · simp [ht] at h
  · rw [if_neg ht] at h
    cases hr : reMatchName (pyStrip e) with
    | none => rw [hr] at h; simp at h
    | some g =>
      rw [hr] at h
      have h2 : (if pyStrip g = [] then none else some (pyStrip g)) = some n := h
      by_cases hn : pyStrip g = []
      · rw [if_pos hn] at h2; simp at h2
      · rw [if_neg hn] at h2
        obtain rfl : pyStrip g = n := Option.some.inj h2
        obtain ⟨hg1, hg2, hg3⟩ := reMatchName_shape (pyStrip e) g hr
        refine ⟨hn, ?_, ?_, pyStrip_head? g, pyStrip_getLast? g⟩
        · exact le_trans (pyStrip_length_le g) hg2
        · intro hc
          exact hg3 (pyStrip_subset g ':' hc)

/-! ### Speaker element invariants claim -/

/-- C9: every registered speaker is non-empty, has at most sixty
characters, contains no colon, and has neither a leading nor a trailing
whitespace character (its first and last characters are not whitespace;
a candidate that trims to the empty string is never registered), and
the speakers list has no duplicates. -/
theorem C9_speaker_invariants :
    (∀ doc n, n ∈ (read_narration_text doc).2 →
      n ≠ [] ∧ n.length ≤ 60 ∧ ':' ∉ n ∧
      (∀ c, n.head? = some c → isPySpace c = false) ∧
      (∀ c, n.getLast? = some c → isPySpace c = false)) ∧
    (∀ doc, (read_narration_text doc).2.Nodup) := by
  constructor
  · intro doc n hmem
    rw [read_snd] at hmem
    unfold dedupFirst at hmem
    have h1 : n ∈ spokenNames doc :=
      ((mem_dedupFirstAux (spokenNames doc) [] n).mp hmem).1
    obtain ⟨e, _, he⟩ := List.mem_filterMap.mp h1
    exact extractName_shape e n he
  · intro doc
    rw [read_snd]
    exact nodup_dedupFirstAux _ []

/-- Witness for C9 at a concrete document and speaker. -/
theorem C9_speaker_invariants_w :
    "Amy".toList ≠ [] ∧ ("Amy".toList).length ≤ 60 ∧ ':' ∉ "Amy".toList :=
  ⟨(C9_speaker_invariants.1 (.txt ["Amy: hi".toList]) "Amy".toList (by decide)).1,
   (C9_speaker_invariants.1 (.txt ["Amy: hi".toList]) "Amy".toList (by decide)).2.1,
   (C9_speaker_invariants.1 (.txt ["Amy: hi".toList]) "Amy".toList (by decide)).2.2.1⟩
